import Mathlib

/-!
Shallow embedding of the dmm-logger sampling tool (Rust).

Covered code:
* `src/app.rs` — `run` (the sampling loop) and `sleep_until` (the scheduler wait),
* `src/instrument.rs` — `read` (timed single reading),
* `src/scpi.rs` — `identification`, `fetch_error`, `receive`,
* `src/lxi.rs` — `receive` (identical stripping/decoding logic).

Modelling conventions:
* `Instant` values are natural numbers of nanoseconds; `Duration.as_millis()` is
  division by 1000000.
* Every call to `Instant::now()` and every load of the termination flag consumes
  one index of a step counter; an `Env` maps counter indices to observed clock
  values / flag values, and maps each sample sequence number to the outcome of
  the device read issued for it.
* The run loop is modelled as a trace-producing function: it records the emitted
  CSV records (samples and comments), the progress-bar updates, and the sequence
  numbers for which device I/O was attempted, plus an ok/error final status.
* Rust strings are lists of characters; byte buffers are lists of naturals < 256.
* The scheduler loop gets an explicit fuel argument (the Rust loop's termination
  relies on real time advancing, which the embedding does not assume); running
  out of fuel yields `none`.
-/

namespace DmmLogger

/-- The environment a run observes: `clock i` is the value returned by the
`i`-th `Instant::now()` call / flag load, `flag i` the value of the termination
flag at step `i`, `readRes k` the device reading for sequence number `k`
(`none` = the read fails), and `dt k` the wall-clock timestamp taken for
sequence number `k`. -/
structure Env where
  clock : Nat → Nat
  flag : Nat → Bool
  readRes : Nat → Option Int
  dt : Nat → Nat

/-- `src/app.rs` `sleep_until`: loop { if flag return false; if now >= until
return true; sleep(if remaining.as_millis() >= 150 then 100ms else remaining) }.
Returns the fire/cancel decision, the step counter at exit, and the list of
sleep durations that were requested (in order).  `none` = out of fuel. -/
def sleep_until (env : Env) (untilT : Nat) : Nat → Nat → Option (Bool × Nat × List Nat)
  | 0, _ => none
  | fuel + 1, c =>
    if env.flag c then some (false, c + 1, [])
    else
      let now := env.clock (c + 1)
      if untilT ≤ now then some (true, c + 2, [])
      else
        let remaining := untilT - now
        let slice := if 150 ≤ remaining / 1000000 then 100000000 else remaining
        match sleep_until env untilT fuel (c + 2) with
        | none => none
        | some (b, cExit, s) => some (b, cExit, slice :: s)

/-- `src/instrument.rs` `read`: datetime = Local::now(); moment = Instant::now();
reading = dmm.read()?; latency = moment.elapsed().  Returns
(datetime, moment, latency, reading, next step counter); `none` = the device
read failed (error propagates). -/
def instrument_read (env : Env) (sequence c : Nat) :
    Option (Nat × Nat × Nat × Int × Nat) :=
  match env.readRes sequence with
  | none => none
  | some reading =>
    let datetime := env.dt sequence
    let moment := env.clock c
    let latency := env.clock (c + 1) - moment
    some (datetime, moment, latency, reading, c + 2)

/-- The payload of a comment line written instead of a sample:
`"{seq}: Too late! {delay}"` or `"{seq}: Latency too high! ({latency})"`. -/
inductive Note where
  | tooLate (delay : Nat)
  | latencyHigh (latency : Nat)
deriving DecidableEq

/-- One record written to the CSV output: either a sample row
(`write_reading`) or a comment line (`write_comment`). -/
inductive OutRec where
  | sample (sequence datetime moment delay latency : Nat) (reading : Int)
  | comment (sequence : Nat) (note : Note)
deriving DecidableEq

/-- The sequence number a record was written for. -/
def OutRec.seq : OutRec → Nat
  | .sample s _ _ _ _ _ => s
  | .comment s _ => s

/-- Whether a record is a sample row. -/
def OutRec.isSample : OutRec → Bool
  | .sample _ _ _ _ _ _ => true
  | .comment _ _ => false

/-- Whether the tick that produced this record also updated the progress bar:
in the code `bar.update(reading)` runs after every completed device read
(accepted sample or latency-discarded reading), but not for a skipped
(too-late) tick. -/
def OutRec.countsBar : OutRec → Bool
  | .sample _ _ _ _ _ _ => true
  | .comment _ (.latencyHigh _) => true
  | .comment _ (.tooLate _) => false

/-- Everything a run emits: CSV records in order, progress-bar updates in
order, sequence numbers for which device I/O was attempted, and whether the
function returned `Ok` (`true`) or propagated an error (`false`). -/
structure Trace where
  outs : List OutRec
  bars : List Int
  reads : List Nat
  ok : Bool
deriving DecidableEq

/-- The `for sequence in 1..num_samples` loop of `src/app.rs` `run`, with
`rem` iterations left and current sequence number `sequence`.  One iteration:
planed = started + sequence*period; now = Instant::now(); in drop mode a tick
whose `now` already reached `planed` writes a "Too late" comment and performs
no device I/O; otherwise the scheduler wait runs, a cancellation breaks the
loop (returning `Ok`), a fire performs the timed read (an I/O failure
propagates the error), writes either a "Latency too high" comment (drop mode,
latency ≥ period) or a sample row, and updates the progress bar. -/
def runLoop (env : Env) (period : Nat) (drop : Bool) (started fuel : Nat) :
    Nat → Nat → Nat → Option Trace
  | 0, _, _ => some ⟨[], [], [], true⟩
  | rem + 1, sequence, c =>
    let planed := started + sequence * period
    let now := env.clock c
    if drop ∧ planed ≤ now then
      match runLoop env period drop started fuel rem (sequence + 1) (c + 1) with
      | none => none
      | some t =>
        some ⟨.comment sequence (.tooLate (now - planed)) :: t.outs,
              t.bars, t.reads, t.ok⟩
    else
      match sleep_until env planed fuel (c + 1) with
      | none => none
      | some (false, _, _) => some ⟨[], [], [], true⟩
      | some (true, cExit, _) =>
        match instrument_read env sequence cExit with
        | none => some ⟨[], [], [sequence], false⟩
        | some (datetime, moment, latency, reading, cNext) =>
          let delay := moment - planed
          let momentRel := moment - started
          let out :=
            if drop ∧ period ≤ latency then
              OutRec.comment sequence (.latencyHigh latency)
            else
              OutRec.sample sequence datetime momentRel delay latency reading
          match runLoop env period drop started fuel rem (sequence + 1) cNext with
          | none => none
          | some t => some ⟨out :: t.outs, reading :: t.bars, sequence :: t.reads, t.ok⟩

/-- `src/app.rs` `run`: the first reading is taken immediately (sequence 0,
moment and delay written as 0); in drop mode a first reading with
latency ≥ period is replaced by a comment; the progress bar is updated; then
the loop runs for sequences `1..num_samples` anchored at the first capture
instant. -/
def run (env : Env) (period numSamples : Nat) (drop : Bool) (fuel : Nat) :
    Option Trace :=
  match instrument_read env 0 0 with
  | none => some ⟨[], [], [0], false⟩
  | some (datetime, started, latency, reading, c) =>
    let out0 :=
      if drop ∧ period ≤ latency then
        OutRec.comment 0 (.latencyHigh latency)
      else
        OutRec.sample 0 datetime 0 0 latency reading
    match runLoop env period drop started fuel (numSamples - 1) 1 c with
    | none => none
    | some t => some ⟨out0 :: t.outs, reading :: t.bars, 0 :: t.reads, t.ok⟩

/-! ### String models for `src/scpi.rs` (`identification`, `fetch_error`) -/

/-- The result of `identification()`: four trimmed fields, or the whole
trimmed response as `model` with `"?"` sentinels. -/
structure Identification where
  manufacturer : List Char
  model : List Char
  serial : List Char
  firmware : List Char
deriving DecidableEq

/-- Rust `str::split(',')` on a character list: the (possibly empty) pieces
between commas; splitting the empty string yields one empty piece. -/
def splitComma : List Char → List (List Char)
  | [] => [[]]
  | c :: cs =>
    if c = ',' then [] :: splitComma cs
    else
      match splitComma cs with
      | f :: rest => (c :: f) :: rest
      | [] => [[c]]

/-- Inverse of `splitComma`: re-join pieces with commas (used to state that
`splitComma` really splits on commas). -/
def joinComma : List (List Char) → List Char
  | [] => []
  | [f] => f
  | f :: fs => f ++ ',' :: joinComma fs

/-- The Unicode White_Space property: the set of characters stripped by
Rust `str::trim` (`char::is_whitespace`) and matched by the regex crate's
`\s` in its default Unicode mode.  Code points: U+0009..U+000D, U+0020,
U+0085, U+00A0, U+1680, U+2000..U+200A, U+2028, U+2029, U+202F, U+205F,
U+3000. -/
def isWs (c : Char) : Bool :=
  (0x09 ≤ c.toNat ∧ c.toNat ≤ 0x0D) ∨ c.toNat = 0x20 ∨ c.toNat = 0x85 ∨
  c.toNat = 0xA0 ∨ c.toNat = 0x1680 ∨
  (0x2000 ≤ c.toNat ∧ c.toNat ≤ 0x200A) ∨ c.toNat = 0x2028 ∨
  c.toNat = 0x2029 ∨ c.toNat = 0x202F ∨ c.toNat = 0x205F ∨ c.toNat = 0x3000

/-- Rust `str::trim` on a character list (Unicode White_Space). -/
def trim (s : List Char) : List Char :=
  ((s.dropWhile isWs).reverse.dropWhile isWs).reverse

/-- One contiguous run of code points, inclusive. -/
def ndR (lo hi n : Nat) : Bool :=
  decide (lo ≤ n ∧ n ≤ hi)

/-- The Unicode general category Nd (decimal number), Unicode 15.0: what
the regex crate's `\d` matches in its default Unicode mode.  Every Nd run
is ten consecutive code points (the five mathematical-digit runs at U+1D7CE
are written as one interval). -/
def ndCode (n : Nat) : Bool :=
  ndR 0x30 0x39 n || ndR 0x660 0x669 n ||
  ndR 0x6F0 0x6F9 n || ndR 0x7C0 0x7C9 n ||
  ndR 0x966 0x96F n || ndR 0x9E6 0x9EF n ||
  ndR 0xA66 0xA6F n || ndR 0xAE6 0xAEF n ||
  ndR 0xB66 0xB6F n || ndR 0xBE6 0xBEF n ||
  ndR 0xC66 0xC6F n || ndR 0xCE6 0xCEF n ||
  ndR 0xD66 0xD6F n || ndR 0xDE6 0xDEF n ||
  ndR 0xE50 0xE59 n || ndR 0xED0 0xED9 n ||
  ndR 0xF20 0xF29 n || ndR 0x1040 0x1049 n ||
  ndR 0x1090 0x1099 n || ndR 0x17E0 0x17E9 n ||
  ndR 0x1810 0x1819 n || ndR 0x1946 0x194F n ||
  ndR 0x19D0 0x19D9 n || ndR 0x1A80 0x1A89 n ||
  ndR 0x1A90 0x1A99 n || ndR 0x1B50 0x1B59 n ||
  ndR 0x1BB0 0x1BB9 n || ndR 0x1C40 0x1C49 n ||
  ndR 0x1C50 0x1C59 n || ndR 0xA620 0xA629 n ||
  ndR 0xA8D0 0xA8D9 n || ndR 0xA900 0xA909 n ||
  ndR 0xA9D0 0xA9D9 n || ndR 0xA9F0 0xA9F9 n ||
  ndR 0xAA50 0xAA59 n || ndR 0xABF0 0xABF9 n ||
  ndR 0xFF10 0xFF19 n || ndR 0x104A0 0x104A9 n ||
  ndR 0x10D30 0x10D39 n || ndR 0x11066 0x1106F n ||
  ndR 0x110F0 0x110F9 n || ndR 0x11136 0x1113F n ||
  ndR 0x111D0 0x111D9 n || ndR 0x112F0 0x112F9 n ||
  ndR 0x11450 0x11459 n || ndR 0x114D0 0x114D9 n ||
  ndR 0x11650 0x11659 n || ndR 0x116C0 0x116C9 n ||
  ndR 0x11730 0x11739 n || ndR 0x118E0 0x118E9 n ||
  ndR 0x11950 0x11959 n || ndR 0x11C50 0x11C59 n ||
  ndR 0x11D50 0x11D59 n || ndR 0x11DA0 0x11DA9 n ||
  ndR 0x11F50 0x11F59 n || ndR 0x16A60 0x16A69 n ||
  ndR 0x16AC0 0x16AC9 n || ndR 0x16B50 0x16B59 n ||
  ndR 0x1D7CE 0x1D7FF n || ndR 0x1E140 0x1E149 n ||
  ndR 0x1E2F0 0x1E2F9 n || ndR 0x1E4F0 0x1E4F9 n ||
  ndR 0x1E950 0x1E959 n || ndR 0x1FBF0 0x1FBF9 n

/-- A character matching the regex crate's `\d` (Unicode Nd). -/
def isNd (c : Char) : Bool :=
  ndCode c.toNat

/-- `src/scpi.rs` `identification()` applied to the `*IDN?` response string:
split on commas; with exactly 4 fields each trimmed field maps positionally,
otherwise the whole trimmed response becomes the model and the other fields
are the `"?"` sentinel. -/
def identification (response : List Char) : Identification :=
  match splitComma response with
  | [f0, f1, f2, f3] => ⟨trim f0, trim f1, trim f2, trim f3⟩
  | _ => ⟨['?'], trim response, ['?'], ['?']⟩

/-- A device error as returned by `fetch_error`: the parsed code and the
quoted text, verbatim. -/
structure ScpiError where
  code : Int
  text : List Char
deriving DecidableEq

/-- The two ways `fetch_error` can fail: the regex did not match the
response (`bail!`, the "ProtocolError"), or the captured integer field did
not parse as an `i32` (the `?` on `caps[1].parse()`). -/
inductive FetchErr where
  | protocol
  | parseNum
deriving DecidableEq

instance {ε α : Type} [DecidableEq ε] [DecidableEq α] :
    DecidableEq (Except ε α) := fun a b =>
  match a, b with
  | .error e, .error f =>
    if h : e = f then isTrue (by rw [h])
    else isFalse (fun hh => h (Except.error.inj hh))
  | .ok x, .ok y =>
    if h : x = y then isTrue (by rw [h])
    else isFalse (fun hh => h (Except.ok.inj hh))
  | .error _, .ok _ => isFalse (fun hh => Except.noConfusion hh)
  | .ok _, .error _ => isFalse (fun hh => Except.noConfusion hh)

/-- Split a character list at its last `'"'`: `some (before, after)` with
`s = before ++ '"' :: after` and no `'"'` in `after`; `none` if `s` has no
quote. -/
def splitLastQuote (s : List Char) : Option (List Char × List Char) :=
  match s.reverse.dropWhile (fun c => ¬ c = '"') with
  | [] => none
  | _ :: revBefore =>
    some (revBefore.reverse, (s.reverse.takeWhile (fun c => ¬ c = '"')).reverse)

/-- The capture groups of the Rust regex `^([-+]?\d+\s*)\s*,\s*"(.+)"\s*$`
after the optional leading sign has been consumed into `sign`: group 1 is
the sign, the digits (`\d` = Unicode Nd) and any whitespace (`\s` = Unicode
White_Space) before the comma (the group's greedy `\s*` captures it);
group 2 is the text between the first quote and the last quote, which must
be nonempty, contain no newline (`.` does not match `\n`), and be followed
only by whitespace. `none` = no match. -/
def fetchCapsTail (sign rest1 : List Char) : Option (List Char × List Char) :=
  let digits := rest1.takeWhile isNd
  let rest2 := rest1.dropWhile isNd
  if digits = [] then none
  else
    let ws1 := rest2.takeWhile isWs
    match rest2.dropWhile isWs with
    | ',' :: rest4 =>
      (match rest4.dropWhile isWs with
      | '"' :: rest6 =>
        (match splitLastQuote rest6 with
        | none => none
        | some (content, tail) =>
          if content = [] then none
          else if content.any (fun c => c = '\n') then none
          else if tail.all isWs then some (sign ++ digits ++ ws1, content)
          else none)
      | _ => none)
    | _ => none

/-- Dispatch on the optional leading sign (`[-+]?`), then match the rest. -/
def fetchCaps (s : List Char) : Option (List Char × List Char) :=
  match s with
  | [] => fetchCapsTail [] []
  | c :: cs =>
    if c = '+' ∨ c = '-' then fetchCapsTail [c] cs
    else fetchCapsTail [] (c :: cs)

/-- Rust `i32::from_str`: optional sign, one or more ASCII digits, nothing
else, value within the `i32` range; `none` on any other input (in
particular on trailing whitespace or overflow). -/
def parse_i32 (s : List Char) : Option Int :=
  let (neg, ds) :=
    match s with
    | '-' :: t => (true, t)
    | '+' :: t => (false, t)
    | _ => (false, s)
  if ds = [] then none
  else if ds.any (fun c => ¬ c.isDigit) then none
  else
    let v : Nat := ds.foldl (fun a c => a * 10 + (c.toNat - 48)) 0
    if neg then if v ≤ 2 ^ 31 then some (-(v : Int)) else none
    else if v < 2 ^ 31 then some (v : Int) else none

/-- `src/scpi.rs` `fetch_error` applied to the `SYST:ERR?` response: no regex
match is the `bail!` protocol error; a match parses group 1 as `i32` (the
`?` propagates a parse failure); code 0 is `none`, any other code is the
`ScpiError` with the captured text. -/
def fetch_error (response : List Char) : Except FetchErr (Option ScpiError) :=
  match fetchCaps response with
  | none => .error .protocol
  | some (g1, g2) =>
    match parse_i32 g1 with
    | none => .error .parseNum
    | some code => if code ≠ 0 then .ok (some ⟨code, g2⟩) else .ok none

/-- The shape the spec describes for an error-query response, as matched by
the code's regex: optional sign, at least one digit (Unicode Nd), whitespace
(Unicode White_Space, captured into group 1) before the comma, whitespace, a
quoted nonempty newline-free text, trailing whitespace.  Note there is no
whitespace before the sign. -/
def ShapeMatch (r g1 g2 : List Char) : Prop :=
  ∃ sign digits ws1 ws2 ws3,
    (sign = [] ∨ sign = ['+'] ∨ sign = ['-']) ∧
    digits ≠ [] ∧ digits.all isNd ∧
    ws1.all isWs ∧ ws2.all isWs ∧ ws3.all isWs ∧
    g2 ≠ [] ∧ '\n' ∉ g2 ∧
    g1 = sign ++ digits ++ ws1 ∧
    r = g1 ++ ',' :: (ws2 ++ '"' :: (g2 ++ '"' :: ws3))

/-! ### Byte model for `receive` (`src/scpi.rs` / `src/lxi.rs`) -/

/-- Strip one trailing CRLF, or failing that one trailing LF, from a byte
list (`data.ends_with(b"\r\n")` / `data.ends_with(b"\n")`). -/
def stripEol (bs : List Nat) : List Nat :=
  match bs.reverse with
  | 10 :: 13 :: r => r.reverse
  | 10 :: r => r.reverse
  | _ => bs

/-- UTF-8 decoding as validated by Rust `std::str::from_utf8`: returns the
scalar values, or `none` on any ill-formed sequence (continuation-byte
ranges restricted per lead byte, no overlongs, no surrogates, max
U+10FFFF). -/
def utf8DecodeAux : Nat → List Nat → Option (List Nat)
  | _, [] => some []
  | 0, _ :: _ => none
  | fuel + 1, b :: bs =>
    if b < 0x80 then (utf8DecodeAux fuel bs).map (fun cs => b :: cs)
    else if b < 0xC2 then none
    else if b < 0xE0 then
      match bs with
      | b1 :: bs1 =>
        if 0x80 ≤ b1 ∧ b1 < 0xC0 then
          (utf8DecodeAux fuel bs1).map
            (fun cs => ((b - 0xC0) * 0x40 + (b1 - 0x80)) :: cs)
        else none
      | [] => none
    else if b < 0xF0 then
      match bs with
      | b1 :: b2 :: bs2 =>
        if (if b = 0xE0 then 0xA0 ≤ b1 ∧ b1 < 0xC0
            else if b = 0xED then 0x80 ≤ b1 ∧ b1 < 0xA0
            else 0x80 ≤ b1 ∧ b1 < 0xC0) ∧ 0x80 ≤ b2 ∧ b2 < 0xC0 then
          (utf8DecodeAux fuel bs2).map
            (fun cs => ((b - 0xE0) * 0x1000 + (b1 - 0x80) * 0x40 + (b2 - 0x80)) :: cs)
        else none
      | _ => none
    else if b < 0xF5 then
      match bs with
      | b1 :: b2 :: b3 :: bs3 =>
        if (if b = 0xF0 then 0x90 ≤ b1 ∧ b1 < 0xC0
            else if b = 0xF4 then 0x80 ≤ b1 ∧ b1 < 0x90
            else 0x80 ≤ b1 ∧ b1 < 0xC0) ∧
            (0x80 ≤ b2 ∧ b2 < 0xC0) ∧ (0x80 ≤ b3 ∧ b3 < 0xC0) then
          (utf8DecodeAux fuel bs3).map
            (fun cs => ((b - 0xF0) * 0x40000 + (b1 - 0x80) * 0x1000 +
                   (b2 - 0x80) * 0x40 + (b3 - 0x80)) :: cs)
        else none
      | _ => none
    else none

/-- UTF-8 decoding: one lead byte consumes one unit of fuel, and a byte list
never holds more scalar values than bytes, so `bs.length` fuel always
suffices. -/
def utf8Decode (bs : List Nat) : Option (List Nat) :=
  utf8DecodeAux bs.length bs

/-- The UTF-8 encoding of one Unicode scalar value (`none` for surrogates
and values above U+10FFFF).  Reference definition used to state what "valid
UTF-8" means, independently of the decoder. -/
def encodeChar (c : Nat) : Option (List Nat) :=
  if c < 0x80 then some [c]
  else if c < 0x800 then some [0xC0 + c / 0x40, 0x80 + c % 0x40]
  else if c < 0x10000 then
    if 0xD800 ≤ c ∧ c < 0xE000 then none
    else some [0xE0 + c / 0x1000, 0x80 + c / 0x40 % 0x40, 0x80 + c % 0x40]
  else if c < 0x110000 then
    some [0xF0 + c / 0x40000, 0x80 + c / 0x1000 % 0x40,
          0x80 + c / 0x40 % 0x40, 0x80 + c % 0x40]
  else none

/-- UTF-8 encoding of a list of scalar values. -/
def utf8Encode : List Nat → Option (List Nat)
  | [] => some []
  | c :: cs =>
    match encodeChar c, utf8Encode cs with
    | some e, some rest => some (e ++ rest)
    | _, _ => none

/-- `receive()` over a stream of read-call results: one `stream.read` call
delivers the head chunk (at most the 2048-byte buffer) — never a second
read; one trailing CRLF or LF is stripped; the bytes are UTF-8 decoded
(`none` inside = the `DecodeError`).  The outer `none` = the read call
itself failed (`IoError`). -/
def receive (chunks : List (List Nat)) :
    Option (Option (List Nat) × List (List Nat)) :=
  match chunks with
  | [] => none
  | chunk :: rest => some (utf8Decode (stripEol (chunk.take 2048)), rest)

/-! ### Concrete environments used by the witnesses -/

/-- A quiet environment: the clock advances 1 ms per observation, the
termination flag never gets set, every read succeeds with reading 5. -/
def envA : Env where
  clock := fun i => i * 1000000
  flag := fun _ => false
  readRes := fun _ => some 5
  dt := fun s => s

/-- The trace `run` produces in `envA` with a 10 ms period, 3 samples, no
drop mode. -/
def traceA : Trace :=
  (run envA 10000000 3 false 50).getD ⟨[], [], [], false⟩

/-- An environment whose termination flag is set from the start. -/
def envB : Env where
  clock := fun i => i * 1000000
  flag := fun _ => true
  readRes := fun _ => some 5
  dt := fun s => s

/-- An environment where every device read has latency 1 (clock advances 1
per observation): with period 1 every reading is latency-discarded in drop
mode. -/
def envC : Env where
  clock := fun i => i
  flag := fun _ => false
  readRes := fun _ => some 5
  dt := fun s => s

/-- An environment whose device reads fail. -/
def envD : Env where
  clock := fun i => i * 1000000
  flag := fun _ => false
  readRes := fun _ => none
  dt := fun s => s

/-- The trace `run` produces in `envC` with period 1 and 2 samples in drop
mode: the first reading has latency 1 ≥ period, so it is discarded. -/
def traceC : Trace :=
  (run envC 1 2 true 50).getD ⟨[], [], [], false⟩

/-! ### Scheduler lemmas -/

/-- When the scheduler wait fires, the last clock value it observed (at step
`cE - 1`) had already reached the target, and at least one flag load and one
clock read happened. -/
theorem sleep_until_fire_clock (env : Env) (u : Nat) :
    ∀ fuel c cE s, sleep_until env u fuel c = some (true, cE, s) →
      u ≤ env.clock (cE - 1) ∧ c + 2 ≤ cE := by
  intro fuel
  induction fuel with
  | zero => intro c cE s h; simp [sleep_until] at h
  | succ n ih =>
    intro c cE s h
    simp only [sleep_until] at h
    by_cases hf : env.flag c
    · simp [hf] at h
    · simp only [hf, Bool.false_eq_true, if_false] at h
      by_cases hle : u ≤ env.clock (c + 1)
      · rw [if_pos hle] at h
        have hcE : cE = c + 2 := by
          simp only [Option.some.injEq, Prod.mk.injEq] at h
          omega
        subst hcE
        refine ⟨by simpa using hle, le_refl _⟩
      · rw [if_neg hle] at h
        cases hrec : sleep_until env u n (c + 2) with
        | none => rw [hrec] at h; simp at h
        | some r =>
          obtain ⟨b, cE', s'⟩ := r
          rw [hrec] at h
          simp only [Option.some.injEq, Prod.mk.injEq] at h
          obtain ⟨hb, hcE, -⟩ := h
          have h2 := ih (c + 2) cE' s' (hb ▸ hrec)
          rw [← hcE]
          exact ⟨h2.1, by omega⟩

/-- When the scheduler wait reports a cancellation, the flag load it just
performed (at step `cE - 1`) observed the flag set. -/
theorem sleep_until_cancel_flag (env : Env) (u : Nat) :
    ∀ fuel c cE s, sleep_until env u fuel c = some (false, cE, s) →
      env.flag (cE - 1) = true := by
  intro fuel
  induction fuel with
  | zero => intro c cE s h; simp [sleep_until] at h
  | succ n ih =>
    intro c cE s h
    simp only [sleep_until] at h
    by_cases hf : env.flag c
    · have hcE : cE = c + 1 := by
        simp only [hf, if_true, Option.some.injEq, Prod.mk.injEq] at h
        omega
      subst hcE
      simpa using hf
    · simp only [hf, Bool.false_eq_true, if_false] at h
      by_cases hle : u ≤ env.clock (c + 1)
      · rw [if_pos hle] at h; simp at h
      · rw [if_neg hle] at h
        cases hrec : sleep_until env u n (c + 2) with
        | none => rw [hrec] at h; simp at h
        | some r =>
          obtain ⟨b, cE', s'⟩ := r
          rw [hrec] at h
          simp only [Option.some.injEq, Prod.mk.injEq] at h
          obtain ⟨hb, hcE, -⟩ := h
          rw [← hcE]
          exact ih (c + 2) cE' s' (hb ▸ hrec)

/-- C1: the scheduler wait loops while the cancellation flag is clear: a set
flag is answered with "cancelled" (`false`) immediately, with no further
sleep; a clear flag with remaining time ≤ 0 returns "fire" (`true`); a clear
flag with remaining time > 0 sleeps a 100 ms slice when
`remaining.as_millis() ≥ 150` (equivalently, remaining ≥ 150 ms) and exactly
the remainder otherwise, then loops; moreover any "fire" answer comes after
the observed time reached the target, and any "cancelled" answer comes from
an observation of the set flag. -/
theorem c1_sleep_until (env : Env) (u fuel c : Nat) :
    (env.flag c = true → sleep_until env u (fuel + 1) c = some (false, c + 1, [])) ∧
    (env.flag c = false → u ≤ env.clock (c + 1) →
      sleep_until env u (fuel + 1) c = some (true, c + 2, [])) ∧
    (env.flag c = false → env.clock (c + 1) < u →
      sleep_until env u (fuel + 1) c =
        (sleep_until env u fuel (c + 2)).map
          (fun r => (r.1, r.2.1,
            (if 150 ≤ (u - env.clock (c + 1)) / 1000000 then 100000000
             else u - env.clock (c + 1)) :: r.2.2)) ∧
      (150 ≤ (u - env.clock (c + 1)) / 1000000 ↔ 150 * 1000000 ≤ u - env.clock (c + 1))) ∧
    (∀ b cE s, sleep_until env u fuel c = some (b, cE, s) →
      (b = true → u ≤ env.clock (cE - 1)) ∧ (b = false → env.flag (cE - 1) = true)) := by
  refine ⟨?_, ?_, ?_, ?_⟩
  · intro hf
    simp [sleep_until, hf]
  · intro hf hle
    simp [sleep_until, hf, hle]
  · intro hf hlt
    constructor
    · simp only [sleep_until, hf, Bool.false_eq_true, if_false, if_neg (by omega : ¬ u ≤ env.clock (c + 1))]
      cases hrec : sleep_until env u fuel (c + 2) with
      | none => simp
      | some r => obtain ⟨b, cE, s⟩ := r; simp
    · constructor
      · intro h
        have := (Nat.le_div_iff_mul_le (by norm_num : 0 < 1000000)).mp h
        omega
      · intro h
        exact (Nat.le_div_iff_mul_le (by norm_num : 0 < 1000000)).mpr (by omega)
  · intro b cE s h
    constructor
    · intro hb
      exact (sleep_until_fire_clock env u fuel c cE s (hb ▸ h)).1
    · intro hb
      exact sleep_until_cancel_flag env u fuel c cE s (hb ▸ h)

/-- Witness for C1: in `envB` (flag set) the wait cancels immediately; in
`envA` (flag clear, target already reached) it fires. -/
theorem c1_sleep_until_witness :
    sleep_until envB 0 1 0 = some (false, 1, []) ∧
    sleep_until envA 0 1 0 = some (true, 2, []) :=
  ⟨(c1_sleep_until envB 0 0 0).1 rfl,
   (c1_sleep_until envA 0 0 0).2.1 rfl (by decide)⟩

/-! ### Run-loop invariants -/

/-- Inversion for `instrument_read`. -/
theorem instrument_read_inv {env : Env} {s c d m l cN : Nat} {r : Int}
    (h : instrument_read env s c = some (d, m, l, r, cN)) :
    env.readRes s = some r ∧ d = env.dt s ∧ m = env.clock c ∧
    l = env.clock (c + 1) - env.clock c ∧ cN = c + 2 := by
  unfold instrument_read at h
  cases hr : env.readRes s with
  | none => rw [hr] at h; simp at h
  | some r' =>
    rw [hr] at h
    simp only [Option.some.injEq, Prod.mk.injEq] at h
    obtain ⟨h1, h2, h3, h4, h5⟩ := h
    subst h4
    exact ⟨rfl, h1.symm, h2.symm, h3.symm, h5.symm⟩

/-- Core invariant of the sampling loop: each iteration writes exactly one
record carrying the iteration's sequence number (so the written sequence
numbers are consecutive from the starting one), every attempted read is for
a sequence number at or after the starting one, the progress bar advances
exactly once per completed device read (samples and latency-discarded
readings, not too-late skips), and without drop mode every record is a
sample row. -/
theorem runLoop_spec (env : Env) (p : Nat) (drop : Bool) (st fuel : Nat) :
    ∀ rem seq c t, runLoop env p drop st fuel rem seq c = some t →
      t.outs.map OutRec.seq = List.range' seq t.outs.length ∧
      (∀ r ∈ t.reads, seq ≤ r) ∧
      t.bars.length = (t.outs.filter OutRec.countsBar).length ∧
      (drop = false → ∀ o ∈ t.outs, o.isSample = true) := by
  intro rem
  induction rem with
  | zero =>
    intro seq c t h
    simp only [runLoop, Option.some.injEq] at h
    subst h
    simp [List.range']
  | succ n ih =>
    intro seq c t h
    simp only [runLoop] at h
    split at h
    · -- too-late skip
      rename_i hcond
      split at h
      · exact absurd h (by simp)
      · rename_i t' heq
        obtain ⟨ih1, ih2, ih3, ih4⟩ := ih (seq + 1) (c + 1) t' heq
        cases h
        refine ⟨?_, ?_, ?_, ?_⟩
        · simpa [OutRec.seq, List.range'] using ih1
        · intro r hr
          exact Nat.le_of_succ_le (ih2 r hr)
        · simpa [OutRec.countsBar] using ih3
        · intro hd
          rw [hd] at hcond
          simp at hcond
    · -- scheduler path
      split at h
      · exact absurd h (by simp)
      · -- cancelled
        cases h
        simp [List.range']
      · -- fire
        rename_i cExit sl hsleep
        split at h
        · -- read failed
          cases h
          refine ⟨by simp [List.range'], ?_, by simp, by simp⟩
          intro r hr
          simp only [List.mem_singleton] at hr
          omega
        · -- read succeeded
          rename_i datetime moment latency reading cNext hread
          split at h
          · exact absurd h (by simp)
          · rename_i t' heq
            obtain ⟨ih1, ih2, ih3, ih4⟩ := ih (seq + 1) cNext t' heq
            cases h
            have hseq : OutRec.seq
                (if drop = true ∧ p ≤ latency then
                  OutRec.comment seq (.latencyHigh latency)
                else
                  OutRec.sample seq datetime (moment - st) (moment - (st + seq * p))
                    latency reading) = seq := by
              split <;> rfl
            have hbar : OutRec.countsBar
                (if drop = true ∧ p ≤ latency then
                  OutRec.comment seq (.latencyHigh latency)
                else
                  OutRec.sample seq datetime (moment - st) (moment - (st + seq * p))
                    latency reading) = true := by
              split <;> rfl
            refine ⟨?_, ?_, ?_, ?_⟩
            · simpa [hseq, List.range'] using ih1
            · intro r hr
              simp only [List.mem_cons] at hr
              rcases hr with hr | hr
              · omega
              · exact Nat.le_of_succ_le (ih2 r hr)
            · simp [List.filter, hbar, ih3]
            · intro hd
              intro o ho
              simp only [List.mem_cons] at ho
              rcases ho with ho | ho
              · subst ho
                rw [if_neg (by simp [hd])]
                rfl
              · exact ih4 hd o ho

/-- Timing invariant of the sampling loop: under a monotone clock, every
sample row was captured at or after its planned instant, so its `delay`
column is the exact difference `capture − planned` (computed without
truncation) and relates to the `moment` column by
`delay = moment − seq·period`. -/
theorem runLoop_delay (env : Env) (p : Nat) (drop : Bool) (st fuel : Nat)
    (hmono : Monotone env.clock) :
    ∀ rem seq c t, runLoop env p drop st fuel rem seq c = some t →
      ∀ sq dtv mom dly lat r, OutRec.sample sq dtv mom dly lat r ∈ t.outs →
        st + sq * p ≤ st + mom ∧ sq * p ≤ mom ∧ dly = mom - sq * p := by
  intro rem
  induction rem with
  | zero =>
    intro seq c t h
    simp only [runLoop, Option.some.injEq] at h
    subst h
    simp
  | succ n ih =>
    intro seq c t h
    simp only [runLoop] at h
    split at h
    · split at h
      · exact absurd h (by simp)
      · rename_i t' heq
        cases h
        intro sq dtv mom dly lat r hmem
        simp only [List.mem_cons] at hmem
        rcases hmem with hmem | hmem
        · exact absurd hmem (by simp)
        · exact ih (seq + 1) (c + 1) t' heq sq dtv mom dly lat r hmem
    · split at h
      · exact absurd h (by simp)
      · cases h
        intro sq dtv mom dly lat r hmem
        exact absurd hmem (by simp)
      · rename_i cExit sl hsleep
        split at h
        · cases h
          intro sq dtv mom dly lat r hmem
          exact absurd hmem (by simp)
        · rename_i datetime moment latency reading cNext hread
          split at h
          · exact absurd h (by simp)
          · rename_i t' heq
            cases h
            intro sq dtv mom dly lat r hmem
            simp only [List.mem_cons] at hmem
            rcases hmem with hmem | hmem
            · have hfire := sleep_until_fire_clock env (st + seq * p) fuel (c + 1)
                cExit sl hsleep
              have hmom : moment = env.clock cExit := (instrument_read_inv hread).2.2.1
              have hplan : st + seq * p ≤ moment := by
                calc st + seq * p ≤ env.clock (cExit - 1) := hfire.1
                  _ ≤ env.clock cExit := hmono (by omega)
                  _ = moment := hmom.symm
              revert hmem
              split
              · intro hmem
                exact absurd hmem (by simp)
              · intro hmem
                simp only [OutRec.sample.injEq] at hmem
                obtain ⟨h1, -, h3, h4, -, -⟩ := hmem
                subst h1
                constructor
                · omega
                · omega
            · exact ih (seq + 1) cNext t' heq sq dtv mom dly lat r hmem

/-! ### Claim theorems about the run loop -/

/-- C3: over any run, the emitted records carry the consecutive sequence
numbers 0, 1, 2, … in order — each tick consumes exactly one sequence
number, drop-mode ticks included; hence the sequence numbers of emitted
records (and a fortiori of emitted Sample rows) are strictly increasing with
no duplicates, and outside drop mode every record is a Sample (gaps can come
only from drop-mode ticks, which emit comments, never samples). -/
theorem c3_sequence_numbers (env : Env) (p n : Nat) (drop : Bool) (fuel : Nat)
    (t : Trace) (h : run env p n drop fuel = some t) :
    t.outs.map OutRec.seq = List.range' 0 t.outs.length ∧
    (t.outs.map OutRec.seq).Pairwise (· < ·) ∧
    ((t.outs.filter (fun o => o.isSample)).map OutRec.seq).Pairwise (· < ·) ∧
    (drop = false → ∀ o ∈ t.outs, o.isSample = true) := by
  have hrange : t.outs.map OutRec.seq = List.range' 0 t.outs.length ∧
      (drop = false → ∀ o ∈ t.outs, o.isSample = true) := by
    simp only [run] at h
    split at h
    · cases h
      simp [List.range']
    · rename_i d0 st lat0 r0 c1 hread
      split at h
      · exact absurd h (by simp)
      · rename_i t' heq
        obtain ⟨ih1, -, -, ih4⟩ := runLoop_spec env p drop st fuel (n - 1) 1 c1 t' heq
        cases h
        have hseq : OutRec.seq
            (if drop = true ∧ p ≤ lat0 then OutRec.comment 0 (.latencyHigh lat0)
             else OutRec.sample 0 d0 0 0 lat0 r0) = 0 := by
          split <;> rfl
        refine ⟨by simpa [hseq, List.range'] using ih1, ?_⟩
        intro hd o ho
        simp only [List.mem_cons] at ho
        rcases ho with ho | ho
        · subst ho
          rw [if_neg (by simp [hd])]
          rfl
        · exact ih4 hd o ho
  have hpw : (t.outs.map OutRec.seq).Pairwise (· < ·) := by
    rw [hrange.1]
    exact List.pairwise_lt_range' 0 t.outs.length
  refine ⟨hrange.1, hpw, ?_, hrange.2⟩
  exact hpw.sublist ((List.filter_sublist t.outs).map OutRec.seq)

/-- Witness for C3 at a concrete run of three samples. -/
theorem c3_sequence_numbers_witness :
    traceA.outs.map OutRec.seq = List.range' 0 traceA.outs.length ∧
    (traceA.outs.map OutRec.seq).Pairwise (· < ·) ∧
    ((traceA.outs.filter (fun o => o.isSample)).map OutRec.seq).Pairwise (· < ·) ∧
    (false = false → ∀ o ∈ traceA.outs, o.isSample = true) :=
  c3_sequence_numbers envA 10000000 3 false 50 traceA (by decide)

/-- C5: in drop mode, a tick whose planned instant has already passed when
the loop reaches it emits a "Too late" comment carrying the overrun amount
(never a Sample), performs no device I/O for its sequence number, and the
loop proceeds with the next tick. -/
theorem c5_drop_skip (env : Env) (p st fuel rem seq c : Nat) (t : Trace)
    (hlate : st + seq * p ≤ env.clock c)
    (h : runLoop env p true st fuel (rem + 1) seq c = some t) :
    t.outs.head? = some (.comment seq (.tooLate (env.clock c - (st + seq * p)))) ∧
    seq ∉ t.reads ∧
    ∃ t', runLoop env p true st fuel rem (seq + 1) (c + 1) = some t' ∧
      t = ⟨.comment seq (.tooLate (env.clock c - (st + seq * p))) :: t'.outs,
           t'.bars, t'.reads, t'.ok⟩ := by
  simp only [runLoop] at h
  split at h
  · split at h
    · exact absurd h (by simp)
    · rename_i t' heq
      cases h
      refine ⟨rfl, ?_, t', heq, rfl⟩
      intro hmem
      have := (runLoop_spec env p true st fuel rem (seq + 1) (c + 1) t' heq).2.1 seq hmem
      omega
  · rename_i hcond
    exact absurd hlate (by simpa using hcond)

/-- Witness for C5: in `envC` with period 1, tick 1 is already overdue. -/
theorem c5_drop_skip_witness :
    ∃ t, runLoop envC 1 true 0 50 (0 + 1) 1 2 = some t ∧
      t.outs.head? = some (.comment 1 (.tooLate (envC.clock 2 - (0 + 1 * 1)))) ∧
      1 ∉ t.reads :=
  ⟨⟨[.comment 1 (.tooLate 1)], [], [], true⟩, by decide,
    (c5_drop_skip envC 1 0 50 0 1 2 ⟨[.comment 1 (.tooLate 1)], [], [], true⟩
      (by decide) (by decide)).1,
    (c5_drop_skip envC 1 0 50 0 1 2 ⟨[.comment 1 (.tooLate 1)], [], [], true⟩
      (by decide) (by decide)).2.1⟩

/-- C6: when the scheduler wait reports "cancelled" at a tick, the loop
returns immediately with success — no device read for that tick or any later
one, no further records; exhausting the sample count likewise returns
success; whereas a failing device read at a fired tick returns an error
(`ok = false`), so clean termination and fatal aborts are distinguishable.
Records emitted before the stopping tick are untouched (the loop only ever
prepends the earlier records to what follows). -/
theorem c6_cancellation (env : Env) (p : Nat) (drop : Bool)
    (st fuel rem seq c cE : Nat) (sl : List Nat)
    (hnl : ¬ (drop = true ∧ st + seq * p ≤ env.clock c))
    (hcancel : sleep_until env (st + seq * p) fuel (c + 1) = some (false, cE, sl)) :
    runLoop env p drop st fuel (rem + 1) seq c = some ⟨[], [], [], true⟩ ∧
    (∀ (e2 : Env) (p2 : Nat) (d2 : Bool) (st2 f2 s2 c2 : Nat),
      runLoop e2 p2 d2 st2 f2 0 s2 c2 = some ⟨[], [], [], true⟩) ∧
    (∀ (e2 : Env) (p2 : Nat) (d2 : Bool) (st2 f2 r2 s2 c2 cE2 : Nat) (sl2 : List Nat),
      ¬ (d2 = true ∧ st2 + s2 * p2 ≤ e2.clock c2) →
      sleep_until e2 (st2 + s2 * p2) f2 (c2 + 1) = some (true, cE2, sl2) →
      e2.readRes s2 = none →
      runLoop e2 p2 d2 st2 f2 (r2 + 1) s2 c2 = some ⟨[], [], [s2], false⟩) := by
  refine ⟨?_, fun _ _ _ _ _ _ _ => rfl, ?_⟩
  · simp only [runLoop]
    rw [if_neg hnl, hcancel]
  · intro e2 p2 d2 st2 f2 r2 s2 c2 cE2 sl2 hnl2 hfire hfail
    simp only [runLoop]
    rw [if_neg hnl2, hfire]
    simp [instrument_read, hfail]

/-- Witness for C6: in `envB` the flag is set, so tick 1 of a run is
cancelled at once. -/
theorem c6_cancellation_witness :
    runLoop envB 10000000 false 0 50 (1 + 1) 1 2 = some ⟨[], [], [], true⟩ :=
  (c6_cancellation envB 10000000 false 0 50 1 1 2 4 []
    (by decide) (by decide)).1

/-- C8 counterexample: in drop mode with period 1 and a first-read latency
of 1, the single tick's reading is discarded (a comment is emitted, no
Sample at all), yet the progress bar is advanced once — the code runs
`bar.update(reading)` after every completed read, not only after accepted
samples. -/
theorem c8_counterexample :
    ∃ t, run envC 1 1 true 0 = some t ∧
      (∀ o ∈ t.outs, o.isSample = false) ∧ t.bars ≠ [] :=
  ⟨⟨[.comment 0 (.latencyHigh 1)], [5], [0], true⟩, by decide, by decide, by decide⟩

/-- C8 (amended): the progress indicator is advanced exactly once per
completed device read — that is, once for every emitted Sample row and once
for every latency-discarded reading — and never for a skipped (too-late)
tick, whose comment contributes no update. -/
theorem c8_progress_bar (env : Env) (p n : Nat) (drop : Bool) (fuel : Nat)
    (t : Trace) (h : run env p n drop fuel = some t) :
    t.bars.length = (t.outs.filter OutRec.countsBar).length := by
  simp only [run] at h
  split at h
  · cases h
    rfl
  · rename_i d0 st lat0 r0 c1 hread
    split at h
    · exact absurd h (by simp)
    · rename_i t' heq
      have ih3 := (runLoop_spec env p drop st fuel (n - 1) 1 c1 t' heq).2.2.1
      cases h
      have hbar : OutRec.countsBar
          (if drop = true ∧ p ≤ lat0 then OutRec.comment 0 (.latencyHigh lat0)
           else OutRec.sample 0 d0 0 0 lat0 r0) = true := by
        split <;> rfl
      simp [List.filter, hbar, ih3]

/-- Witness for C8 (amended) at a concrete run. -/
theorem c8_progress_bar_witness :
    traceA.bars.length = (traceA.outs.filter OutRec.countsBar).length :=
  c8_progress_bar envA 10000000 3 false 50 traceA (by decide)

/-- C9: in drop mode the latency ≥ period discard applies to the very first
tick too: the first record is then the "Latency too high" comment for
sequence 0, no Sample with sequence 0 exists anywhere in the output, and the
run continues — the remaining ticks are exactly a run of the loop anchored
at the first capture instant, starting at sequence 1. -/
theorem c9_first_tick (env : Env) (p n fuel d0 m0 lat0 : Nat) (r0 : Int)
    (c1 : Nat) (t : Trace)
    (hread : instrument_read env 0 0 = some (d0, m0, lat0, r0, c1))
    (hlat : p ≤ lat0)
    (hrun : run env p n true fuel = some t) :
    t.outs.head? = some (.comment 0 (.latencyHigh lat0)) ∧
    (∀ o ∈ t.outs, o.isSample = true → 1 ≤ o.seq) ∧
    ∃ t', runLoop env p true m0 fuel (n - 1) 1 c1 = some t' ∧
      t.outs = .comment 0 (.latencyHigh lat0) :: t'.outs := by
  simp only [run, hread] at hrun
  split at hrun
  · exact absurd hrun (by simp)
  · rename_i t' heq
    cases hrun
    have ih1 := (runLoop_spec env p true m0 fuel (n - 1) 1 c1 t' heq).1
    have hout : (if True ∧ p ≤ lat0 then OutRec.comment 0 (.latencyHigh lat0)
        else OutRec.sample 0 d0 0 0 lat0 r0) =
        OutRec.comment 0 (.latencyHigh lat0) := if_pos ⟨trivial, hlat⟩
    rw [hout]
    refine ⟨rfl, ?_, t', heq, rfl⟩
    intro o ho hs
    simp only [List.mem_cons] at ho
    rcases ho with ho | ho
    · subst ho
      exact absurd hs (by simp [OutRec.isSample])
    · have : o.seq ∈ List.map OutRec.seq t'.outs := List.mem_map_of_mem _ ho
      rw [ih1] at this
      exact (List.mem_range'_1.mp this).1

/-- Witness for C9: in `envC` the first reading has latency 1 ≥ period 1. -/
theorem c9_first_tick_witness :
    traceC.outs.head? = some (.comment 0 (.latencyHigh 1)) ∧
    (∀ o ∈ traceC.outs, o.isSample = true → 1 ≤ o.seq) :=
  ⟨(c9_first_tick envC 1 2 50 0 0 1 5 2 traceC (by decide) (by decide) (by decide)).1,
   (c9_first_tick envC 1 2 50 0 0 1 5 2 traceC (by decide) (by decide) (by decide)).2.1⟩

/-- C10: under a monotone clock, every Sample row of a tick k ≥ 1 was
captured at or after its planned instant: its `delay` value is the exact
(non-truncated) difference between capture and plan, witnessed by
`delay + k·period = moment`, so the `Instant` subtraction in the code cannot
underflow. -/
theorem c10_delay_no_underflow (env : Env) (p n : Nat) (drop : Bool)
    (fuel : Nat) (t : Trace)
    (hmono : Monotone env.clock) (h : run env p n drop fuel = some t) :
    ∀ sq dtv mom dly lat r, OutRec.sample sq dtv mom dly lat r ∈ t.outs →
      1 ≤ sq → sq * p ≤ mom ∧ dly = mom - sq * p ∧ dly + sq * p = mom := by
  simp only [run] at h
  split at h
  · cases h
    intro sq dtv mom dly lat r hmem
    exact absurd hmem (by simp)
  · rename_i d0 st lat0 r0 c1 hread
    split at h
    · exact absurd h (by simp)
    · rename_i t' heq
      cases h
      intro sq dtv mom dly lat r hmem hsq
      simp only [List.mem_cons] at hmem
      rcases hmem with hmem | hmem
      · revert hmem
        split
        · intro hmem
          exact absurd hmem (by simp)
        · intro hmem
          simp only [OutRec.sample.injEq] at hmem
          omega
      · have := runLoop_delay env p drop st fuel hmono (n - 1) 1 c1 t' heq
          sq dtv mom dly lat r hmem
        refine ⟨this.2.1, this.2.2, by omega⟩

/-- Witness for C10: the concrete sample at sequence 1 of `traceA` (moment
11 ms, delay 1 ms, period 10 ms). -/
theorem c10_delay_no_underflow_witness :
    1 * 10000000 ≤ 11000000 ∧
    (1000000 : Nat) = 11000000 - 1 * 10000000 ∧
    1000000 + 1 * 10000000 = 11000000 :=
  c10_delay_no_underflow envA 10000000 3 false 50 traceA
    (fun _ _ hab => Nat.mul_le_mul_right 1000000 hab) (by decide)
    1 1 11000000 1000000 1000000 5 (by decide) (by decide)

/-! ### Identification parsing (C4) -/

/-- Splitting never yields an empty field list. -/
theorem splitComma_ne_nil : ∀ r, splitComma r ≠ [] := by
  intro r
  cases r with
  | nil => simp [splitComma]
  | cons c cs =>
    simp only [splitComma]
    split
    · simp
    · split
      · simp
      · simp

/-- `splitComma` really splits on commas: joining the fields with commas
restores the input. -/
theorem joinComma_splitComma : ∀ r, joinComma (splitComma r) = r := by
  intro r
  induction r with
  | nil => rfl
  | cons c cs ih =>
    simp only [splitComma]
    split
    · rename_i hc
      subst hc
      cases hs : splitComma cs with
      | nil => exact absurd hs (splitComma_ne_nil cs)
      | cons f rest =>
        rw [hs] at ih
        simpa [joinComma] using ih
    · rename_i hc
      cases hs : splitComma cs with
      | nil => exact absurd hs (splitComma_ne_nil cs)
      | cons f rest =>
        rw [hs] at ih
        cases rest with
        | nil => simpa [joinComma] using ih
        | cons g rest' => simpa [joinComma] using ih

/-- No field produced by `splitComma` contains a comma. -/
theorem splitComma_no_comma : ∀ r f, f ∈ splitComma r → ',' ∉ f := by
  intro r
  induction r with
  | nil =>
    intro f hf
    simp only [splitComma, List.mem_singleton] at hf
    subst hf
    simp
  | cons c cs ih =>
    intro f hf
    simp only [splitComma] at hf
    split at hf
    · simp only [List.mem_cons] at hf
      rcases hf with hf | hf
      · subst hf; simp
      · exact ih f hf
    · rename_i hc
      cases hs : splitComma cs with
      | nil => exact absurd hs (splitComma_ne_nil cs)
      | cons g rest =>
        rw [hs] at hf
        simp only [List.mem_cons] at hf
        rcases hf with hf | hf
        · subst hf
          intro hmem
          simp only [List.mem_cons] at hmem
          rcases hmem with hmem | hmem
          · exact hc hmem.symm
          · exact ih g (by rw [hs]; exact List.mem_cons_self g rest) hmem
        · exact ih f (by rw [hs]; exact List.mem_cons_of_mem g hf)

/-- C4: `identification` splits the response on commas; with exactly four
fields each trimmed field maps positionally to
manufacturer/model/serial/firmware, otherwise the whole trimmed response is
the model and the other three fields are the `"?"` sentinel — and
`splitComma` genuinely is comma-splitting (joining restores the input and
fields are comma-free).  The two concrete examples of the spec hold, and
trimming follows `str::trim`'s Unicode White_Space (a field padded with a
no-break space U+00A0 is trimmed). -/
theorem c4_identification :
    (∀ r f0 f1 f2 f3, splitComma r = [f0, f1, f2, f3] →
      identification r = ⟨trim f0, trim f1, trim f2, trim f3⟩) ∧
    (∀ r, (splitComma r).length ≠ 4 →
      identification r = ⟨['?'], trim r, ['?'], ['?']⟩) ∧
    (∀ r, joinComma (splitComma r) = r ∧ ∀ f ∈ splitComma r, ',' ∉ f) ∧
    identification "ACME,Model7,SN123,FW2.0".data =
      ⟨"ACME".data, "Model7".data, "SN123".data, "FW2.0".data⟩ ∧
    identification "JustAModel".data = ⟨['?'], "JustAModel".data, ['?'], ['?']⟩ ∧
    identification "A\u00A0,B,C,D".data =
      ⟨"A".data, "B".data, "C".data, "D".data⟩ := by
  refine ⟨?_, ?_, ?_, by decide, by decide, by decide⟩
  · intro r f0 f1 f2 f3 hs
    simp [identification, hs]
  · intro r hlen
    unfold identification
    split
    · rename_i f0 f1 f2 f3 hs
      exact absurd (by rw [hs]; rfl) hlen
    · rfl
  · intro r
    exact ⟨joinComma_splitComma r, splitComma_no_comma r⟩

/-- Witness for C4: the first clause applied to the spec's 4-field
example. -/
theorem c4_identification_witness :
    identification "ACME,Model7,SN123,FW2.0".data =
      ⟨trim "ACME".data, trim "Model7".data, trim "SN123".data,
        trim "FW2.0".data⟩ :=
  c4_identification.1 "ACME,Model7,SN123,FW2.0".data "ACME".data "Model7".data
    "SN123".data "FW2.0".data (by decide)

/-! ### Error-query parsing (C2) -/

/-- Splitting a list at a boundary where the predicate flips: `takeWhile`
returns exactly the left part and `dropWhile` the right part. -/
theorem takeWhile_append_of_all {α} (p : α → Bool) (xs ys : List α)
    (hx : ∀ x ∈ xs, p x = true)
    (hy : ∀ y, ys.head? = some y → p y = false) :
    (xs ++ ys).takeWhile p = xs ∧ (xs ++ ys).dropWhile p = ys := by
  induction xs with
  | nil =>
    cases ys with
    | nil => simp
    | cons y ys' =>
      have := hy y rfl
      simp [List.takeWhile, List.dropWhile, this]
  | cons x xs ih =>
    have hpx := hx x (List.mem_cons_self x xs)
    have := ih (fun z hz => hx z (List.mem_cons_of_mem x hz))
    simp [List.takeWhile, List.dropWhile, hpx, this.1, this.2]

/-- A successful `splitLastQuote` decomposes the input at a quote with a
quote-free suffix. -/
theorem splitLastQuote_eq {s before after : List Char}
    (h : splitLastQuote s = some (before, after)) :
    s = before ++ '"' :: after ∧ '"' ∉ after := by
  unfold splitLastQuote at h
  cases hd : s.reverse.dropWhile (fun c => ¬ c = '"') with
  | nil => rw [hd] at h; simp at h
  | cons a revBefore =>
    rw [hd] at h
    simp only [Option.some.injEq, Prod.mk.injEq] at h
    obtain ⟨h1, h2⟩ := h
    have ha : a = '"' := by
      have hh := List.head?_dropWhile_not (fun c => decide (¬ c = '"')) s.reverse
      rw [hd] at hh
      simpa using hh
    subst ha
    have hsplit : s.reverse.takeWhile (fun c => ¬ c = '"') ++ ('"' :: revBefore) =
        s.reverse := by rw [← hd]; exact List.takeWhile_append_dropWhile _ _
    have hs : s = revBefore.reverse ++ '"' ::
        (s.reverse.takeWhile (fun c => ¬ c = '"')).reverse := by
      have := congrArg List.reverse hsplit
      simpa [List.reverse_append] using this.symm
    constructor
    · rw [← h1, ← h2]
      exact hs
    · rw [← h2]
      intro hmem
      have := List.mem_takeWhile_imp (List.mem_reverse.mp hmem)
      simp at this

/-- Converse: splitting `before ++ '"' :: after` with a quote-free `after`
finds exactly that quote. -/
theorem splitLastQuote_append (before after : List Char) (hafter : '"' ∉ after) :
    splitLastQuote (before ++ '"' :: after) = some (before, after) := by
  have hrev : (before ++ '"' :: after).reverse =
      after.reverse ++ '"' :: before.reverse := by
    simp [List.reverse_append]
  have hall : ∀ x ∈ after.reverse, (fun c => decide (¬ c = '"')) x = true := by
    intro x hx
    have : x ∈ after := List.mem_reverse.mp hx
    have hne : x ≠ '"' := fun he => hafter (he ▸ this)
    simpa using hne
  have hhead : ∀ y, ('"' :: before.reverse).head? = some y →
      (fun c => decide (¬ c = '"')) y = false := by
    intro y hy
    simp only [List.head?] at hy
    cases hy
    simp
  have := takeWhile_append_of_all (fun c => decide (¬ c = '"'))
    after.reverse ('"' :: before.reverse) hall hhead
  unfold splitLastQuote
  rw [hrev]
  rw [show (fun c : Char => decide (¬ c = '"')) = (fun c : Char => ¬ c = '"') from rfl] at this
  rw [this.2, this.1]
  simp

/-- White_Space characters are not decimal digits (the two Unicode sets are
disjoint). -/
theorem isWs_not_nd {c : Char} (h : isWs c = true) : isNd c = false := by
  simp only [isWs, decide_eq_true_eq] at h
  simp only [isNd, ndCode, ndR, Bool.or_eq_false_iff, decide_eq_false_iff_not]
  omega

/-- Decimal digits are not sign characters. -/
theorem isNd_not_sign {c : Char} (h : isNd c = true) :
    ¬(c = '+' ∨ c = '-') := by
  rintro (rfl | rfl) <;> exact absurd h (by decide)

/-- Computation of the regex tail matcher on a decomposed input. -/
theorem fetchCapsTail_eq (sign digits ws1 ws2 text ws3 : List Char)
    (hd : digits ≠ []) (hdall : ∀ c ∈ digits, isNd c = true)
    (h1 : ∀ c ∈ ws1, isWs c = true) (h2 : ∀ c ∈ ws2, isWs c = true)
    (h3 : ∀ c ∈ ws3, isWs c = true)
    (ht : text ≠ []) (hn : '\n' ∉ text) :
    fetchCapsTail sign
        (digits ++ (ws1 ++ ',' :: (ws2 ++ '"' :: (text ++ '"' :: ws3)))) =
      some (sign ++ digits ++ ws1, text) := by
  have hy1 : ∀ y, (ws1 ++ ',' :: (ws2 ++ '"' :: (text ++ '"' :: ws3))).head? = some y →
      isNd y = false := by
    intro y hy
    cases ws1 with
    | nil =>
      simp only [List.nil_append, List.head?] at hy
      cases hy
      decide
    | cons w ws =>
      rw [List.cons_append, List.head?_cons] at hy
      cases hy
      exact isWs_not_nd (h1 _ (List.mem_cons_self _ _))
  have hsd := takeWhile_append_of_all isNd digits
    (ws1 ++ ',' :: (ws2 ++ '"' :: (text ++ '"' :: ws3))) hdall hy1
  have hy2 : ∀ y, (',' :: (ws2 ++ '"' :: (text ++ '"' :: ws3))).head? = some y →
      isWs y = false := by
    intro y hy
    simp only [List.head?] at hy
    cases hy
    decide
  have hws1 := takeWhile_append_of_all isWs ws1
    (',' :: (ws2 ++ '"' :: (text ++ '"' :: ws3))) h1 hy2
  have hy3 : ∀ y, ('"' :: (text ++ '"' :: ws3)).head? = some y → isWs y = false := by
    intro y hy
    simp only [List.head?] at hy
    cases hy
    decide
  have hws2 := takeWhile_append_of_all isWs ws2 ('"' :: (text ++ '"' :: ws3)) h2 hy3
  have hq : '"' ∉ ws3 := by
    intro hmem
    exact absurd (h3 '"' hmem) (by decide)
  have hsl := splitLastQuote_append text ws3 hq
  have hany : (text.any fun c => c = '\n') = false := by
    rw [Bool.eq_false_iff]
    intro hx
    rw [List.any_eq_true] at hx
    obtain ⟨x, hx1, hx2⟩ := hx
    rw [decide_eq_true_eq] at hx2
    subst hx2
    exact hn hx1
  have hall : ws3.all isWs = true := List.all_eq_true.mpr h3
  simp only [fetchCapsTail, hsd.1, hsd.2, hws1.1, hws1.2, hws2.2, if_neg hd, hsl,
    if_neg ht, hany, Bool.false_eq_true, if_false, hall, if_true]

/-- Inversion of the regex tail matcher: a successful match decomposes the
input as sign-digits-whitespace, comma, whitespace, quoted nonempty
newline-free text, trailing whitespace. -/
theorem fetchCapsTail_inv (sign rest1 g1 g2 : List Char)
    (h : fetchCapsTail sign rest1 = some (g1, g2)) :
    ∃ digits ws1 ws2 ws3,
      digits ≠ [] ∧ (∀ c ∈ digits, isNd c = true) ∧
      (∀ c ∈ ws1, isWs c = true) ∧ (∀ c ∈ ws2, isWs c = true) ∧
      (∀ c ∈ ws3, isWs c = true) ∧
      g2 ≠ [] ∧ '\n' ∉ g2 ∧
      g1 = sign ++ digits ++ ws1 ∧
      rest1 = digits ++ (ws1 ++ ',' :: (ws2 ++ '"' :: (g2 ++ '"' :: ws3))) := by
  simp only [fetchCapsTail] at h
  split at h
  · exact absurd h (by simp)
  · rename_i hdne
    split at h
    case _ rest4 heq2 =>
      split at h
      case _ rest6 heq3 =>
        split at h
        · exact absurd h (by simp)
        case _ content tail heq4 =>
          split at h
          · exact absurd h (by simp)
          · rename_i hcne
            split at h
            · exact absurd h (by simp)
            · rename_i hnoNl
              split at h
              · rename_i hallWs
                simp only [Option.some.injEq, Prod.mk.injEq] at h
                obtain ⟨hg1, hg2⟩ := h
                obtain ⟨hr6, -⟩ := splitLastQuote_eq heq4
                refine ⟨rest1.takeWhile isNd,
                  (rest1.dropWhile isNd).takeWhile isWs,
                  rest4.takeWhile isWs, tail, hdne, ?_, ?_, ?_, ?_, ?_, ?_,
                  hg1.symm, ?_⟩
                · intro c hc
                  exact List.mem_takeWhile_imp hc
                · intro c hc
                  exact List.mem_takeWhile_imp hc
                · intro c hc
                  exact List.mem_takeWhile_imp hc
                · intro c hc
                  exact List.all_eq_true.mp hallWs c hc
                · rw [← hg2]
                  exact hcne
                · rw [← hg2]
                  intro hmem
                  exact hnoNl (List.any_eq_true.mpr ⟨'\n', hmem, by decide⟩)
                · have e1 : rest1 = rest1.takeWhile isNd ++
                      rest1.dropWhile isNd :=
                    (List.takeWhile_append_dropWhile _ _).symm
                  have e2 : rest1.dropWhile isNd =
                      (rest1.dropWhile isNd).takeWhile isWs ++
                        ',' :: rest4 := by
                    conv =>
                      left
                      rw [← List.takeWhile_append_dropWhile isWs
                        (rest1.dropWhile isNd)]
                    rw [heq2]
                  have e3 : rest4 = rest4.takeWhile isWs ++ '"' :: rest6 := by
                    conv =>
                      left
                      rw [← List.takeWhile_append_dropWhile isWs rest4]
                    rw [heq3]
                  conv_lhs => rw [e1, e2, e3, hr6]
                  rw [hg2]
              · exact absurd h (by simp)
      case _ h6 =>
        exact absurd h (by simp)
    case _ h4 =>
      exact absurd h (by simp)

/-- The regex matcher succeeds with groups `(g1, g2)` exactly on responses of
the shape `ShapeMatch` describes. -/
theorem fetchCaps_shape (r g1 g2 : List Char) :
    fetchCaps r = some (g1, g2) ↔ ShapeMatch r g1 g2 := by
  constructor
  · intro h
    cases r with
    | nil => simp [fetchCaps, fetchCapsTail] at h
    | cons c cs =>
      simp only [fetchCaps] at h
      split at h
      · rename_i hsign
        obtain ⟨digits, ws1, ws2, ws3, hd, hdall, h1, h2, h3, ht, hn, hg1, hcs⟩ :=
          fetchCapsTail_inv [c] cs g1 g2 h
        refine ⟨[c], digits, ws1, ws2, ws3, ?_, hd, List.all_eq_true.mpr hdall,
          List.all_eq_true.mpr h1, List.all_eq_true.mpr h2,
          List.all_eq_true.mpr h3, ht, hn, hg1, ?_⟩
        · rcases hsign with rfl | rfl
          · exact Or.inr (Or.inl rfl)
          · exact Or.inr (Or.inr rfl)
        · rw [hg1]
          simp only [List.cons_append, List.nil_append, hcs, List.append_assoc]
      · rename_i hsign
        obtain ⟨digits, ws1, ws2, ws3, hd, hdall, h1, h2, h3, ht, hn, hg1, hcs⟩ :=
          fetchCapsTail_inv [] (c :: cs) g1 g2 h
        refine ⟨[], digits, ws1, ws2, ws3, Or.inl rfl, hd,
          List.all_eq_true.mpr hdall, List.all_eq_true.mpr h1,
          List.all_eq_true.mpr h2, List.all_eq_true.mpr h3, ht, hn, hg1, ?_⟩
        rw [hg1]
        simp only [List.nil_append, hcs, List.append_assoc]
  · intro hs
    obtain ⟨sign, digits, ws1, ws2, ws3, hsign, hd, hdall, h1, h2, h3, ht, hn,
      hg1, hr⟩ := hs
    have hdall' := List.all_eq_true.mp hdall
    have h1' := List.all_eq_true.mp h1
    have h2' := List.all_eq_true.mp h2
    have h3' := List.all_eq_true.mp h3
    have hkey := fetchCapsTail_eq sign digits ws1 ws2 g2 ws3 hd hdall' h1' h2'
      h3' ht hn
    subst hg1
    rcases hsign with rfl | rfl | rfl
    · cases digits with
      | nil => exact absurd rfl hd
      | cons d ds =>
        have hdnotsign := isNd_not_sign (hdall' d (List.mem_cons_self d ds))
        rw [show r = d :: (ds ++ (ws1 ++ ',' :: (ws2 ++ '"' :: (g2 ++ '"' :: ws3))))
          from by simpa [List.append_assoc] using hr]
        simp only [fetchCaps]
        rw [if_neg hdnotsign]
        simpa using hkey
    · rw [show r = '+' :: (digits ++ (ws1 ++ ',' :: (ws2 ++ '"' :: (g2 ++ '"' :: ws3))))
        from by simpa [List.append_assoc] using hr]
      simp only [fetchCaps]
      rw [if_pos (Or.inl trivial)]
      simpa using hkey
    · rw [show r = '-' :: (digits ++ (ws1 ++ ',' :: (ws2 ++ '"' :: (g2 ++ '"' :: ws3))))
        from by simpa [List.append_assoc] using hr]
      simp only [fetchCaps]
      rw [if_pos (Or.inr trivial)]
      simpa using hkey

/-- C2 (amended): `fetch_error` fails with the protocol error exactly when
the response does not match the code's regex — whose shape allows no
whitespace before the integer and requires nonempty, newline-free quoted
text; on a regex match it fails with a number-parse error exactly when group
1 (sign, digits, and any whitespace before the comma) does not parse as an
`i32` — in particular whenever whitespace separates the integer from the
comma; when group 1 does parse, the result is `none` iff the code is 0 and
otherwise carries exactly the parsed code and the quoted text verbatim. -/
theorem c2_fetch_error :
    (∀ r g1 g2, fetchCaps r = some (g1, g2) ↔ ShapeMatch r g1 g2) ∧
    (∀ r, fetch_error r = .error .protocol ↔ fetchCaps r = none) ∧
    (∀ r g1 g2, fetchCaps r = some (g1, g2) →
      (fetch_error r = .error .parseNum ↔ parse_i32 g1 = none) ∧
      (fetch_error r = .ok none ↔ parse_i32 g1 = some 0) ∧
      (∀ code, code ≠ 0 →
        (fetch_error r = .ok (some ⟨code, g2⟩) ↔ parse_i32 g1 = some code))) := by
  refine ⟨fetchCaps_shape, ?_, ?_⟩
  · intro r
    cases hc : fetchCaps r with
    | none =>
      unfold fetch_error
      rw [hc]
      simp
    | some p =>
      obtain ⟨g1, g2⟩ := p
      have hfe : fetch_error r =
          (match parse_i32 g1 with
            | none => Except.error FetchErr.parseNum
            | some code => if code ≠ 0 then Except.ok (some ⟨code, g2⟩)
              else Except.ok none) := by
        unfold fetch_error
        rw [hc]
      rw [hfe]
      cases hp : parse_i32 g1 with
      | none => simp
      | some code =>
        by_cases h0 : code = 0
        · subst h0
          simp
        · simp [h0]
  · intro r g1 g2 hc
    cases hp : parse_i32 g1 with
    | none =>
      have hfe : fetch_error r = Except.error FetchErr.parseNum := by
        unfold fetch_error
        rw [hc]
        simp [hp]
      rw [hfe]
      exact ⟨by simp, by simp, fun code hcode => by simp⟩
    | some code =>
      by_cases h0 : code = 0
      · subst h0
        have hfe : fetch_error r = Except.ok none := by
          unfold fetch_error
          rw [hc]
          simp [hp]
        rw [hfe]
        refine ⟨by simp, by simp, ?_⟩
        intro code' hcode'
        constructor
        · intro he
          exact absurd he (by simp)
        · intro he
          simp only [Option.some.injEq] at he
          exact absurd he.symm hcode'
      · have hfe : fetch_error r = Except.ok (some ⟨code, g2⟩) := by
          unfold fetch_error
          rw [hc]
          simp [hp, h0]
        rw [hfe]
        refine ⟨by simp, ?_, ?_⟩
        · constructor
          · intro he
            simp only [Except.ok.injEq] at he
            exact absurd he (by simp)
          · intro he
            simp only [Option.some.injEq] at he
            exact absurd he h0
        · intro code' hcode'
          constructor
          · intro he
            simp only [Except.ok.injEq, Option.some.injEq, ScpiError.mk.injEq] at he
            rw [he.1]
          · intro he
            simp only [Option.some.injEq] at he
            subst he
            rfl

/-- C2 counterexample: `0 ,"No error"` has the claimed shape
`<integer>,"<text>"` with whitespace after the integer (shown by
`ShapeMatch`) and code 0, so per the claim `fetch_error` should return
`None`; the code instead fails, because the regex captures the whitespace
into group 1 and `"0 "` does not parse as an `i32`.  Likewise
`<space>0,"No error"` — whitespace before the integer — is rejected with the
protocol error rather than parsed.  The same divergence holds beyond ASCII:
with a no-break space (U+00A0, matched by the regex crate's Unicode `\s`)
after the `0` the regex matches and the `i32` parse fails, and a Unicode
decimal digit (U+0660, matched by the Unicode `\d`) also matches the regex
but fails `i32` parsing. -/
theorem c2_counterexample :
    ShapeMatch "0 ,\"No error\"".data "0 ".data "No error".data ∧
    fetch_error "0 ,\"No error\"".data = .error .parseNum ∧
    fetch_error " 0,\"No error\"".data = .error .protocol ∧
    (ShapeMatch "0\u00A0,\"No error\"".data "0\u00A0".data "No error".data ∧
      fetch_error "0\u00A0,\"No error\"".data = .error .parseNum) ∧
    (ShapeMatch "\u0660,\"No error\"".data "\u0660".data "No error".data ∧
      fetch_error "\u0660,\"No error\"".data = .error .parseNum) :=
  ⟨⟨[], ['0'], [' '], [], [],
    Or.inl rfl, by decide, by decide, by decide, by decide, by decide,
    by decide, by decide, by decide, by decide⟩,
   by decide, by decide,
   ⟨⟨[], ['0'], ['\u00A0'], [], [],
     Or.inl rfl, by decide, by decide, by decide, by decide, by decide,
     by decide, by decide, by decide, by decide⟩,
    by decide⟩,
   ⟨⟨[], ['\u0660'], [], [], [],
     Or.inl rfl, by decide, by decide, by decide, by decide, by decide,
     by decide, by decide, by decide, by decide⟩,
    by decide⟩⟩

/-- Witness for C2 (amended): a well-formed device error response parses to
exactly its code and text. -/
theorem c2_fetch_error_witness :
    fetch_error "-113,\"Undefined header\"".data =
      .ok (some ⟨-113, "Undefined header".data⟩) :=
  ((c2_fetch_error.2.2 "-113,\"Undefined header\"".data "-113".data
    "Undefined header".data (by decide)).2.2 (-113) (by decide)).mpr (by decide)

/-! ### Line stripping and UTF-8 decoding (C7) -/

/-- A trailing CRLF is stripped — exactly once. -/
theorem stripEol_crlf (xs : List Nat) : stripEol (xs ++ [13, 10]) = xs := by
  unfold stripEol
  have hrev : (xs ++ [13, 10]).reverse = 10 :: 13 :: xs.reverse := by
    simp [List.reverse_append]
  rw [hrev]
  simp

/-- A trailing LF not preceded by CR is stripped — exactly once. -/
theorem stripEol_lf (xs : List Nat) (h : xs.getLast? ≠ some 13) :
    stripEol (xs ++ [10]) = xs := by
  unfold stripEol
  have hrev : (xs ++ [10]).reverse = 10 :: xs.reverse := by
    simp [List.reverse_append]
  rw [hrev]
  split
  · rename_i r heq
    rw [List.cons.injEq] at heq
    have : xs.getLast? = some 13 := by
      rw [← List.head?_reverse, heq.2]
      rfl
    exact absurd this h
  · rename_i r heq
    rw [List.cons.injEq] at heq
    rw [← heq.2, List.reverse_reverse]
  · rename_i hno1 hno2
    exact absurd rfl (hno2 xs.reverse)

/-- Bytes not ending in LF are left unchanged. -/
theorem stripEol_keep (bs : List Nat) (h : bs.getLast? ≠ some 10) :
    stripEol bs = bs := by
  unfold stripEol
  split
  · rename_i r heq
    have : bs.getLast? = some 10 := by
      rw [← List.head?_reverse, heq]
      rfl
    exact absurd this h
  · rename_i r heq
    have : bs.getLast? = some 10 := by
      rw [← List.head?_reverse, heq]
      rfl
    exact absurd this h
  · rfl

/-- Decoding after encoding one scalar value peels off exactly that value
(one unit of fuel per decoded value). -/
theorem utf8DecodeAux_encodeChar (fuel c : Nat) (e rest : List Nat)
    (h : encodeChar c = some e) :
    utf8DecodeAux (fuel + 1) (e ++ rest) =
      (utf8DecodeAux fuel rest).map (fun cs => c :: cs) := by
  unfold encodeChar at h
  by_cases h1 : c < 0x80
  · rw [if_pos h1] at h
    simp only [Option.some.injEq] at h
    subst h
    simp only [List.append_eq, List.cons_append, List.nil_append, utf8DecodeAux]
    rw [if_pos h1]
  · rw [if_neg h1] at h
    by_cases h2 : c < 0x800
    · rw [if_pos h2] at h
      simp only [Option.some.injEq] at h
      subst h
      simp only [List.append_eq, List.cons_append, List.nil_append, utf8DecodeAux]
      rw [if_neg (show ¬ (0xC0 + c / 0x40 < 0x80) by omega)]
      rw [if_neg (show ¬ (0xC0 + c / 0x40 < 0xC2) by omega)]
      rw [if_pos (show 0xC0 + c / 0x40 < 0xE0 by omega)]
      rw [if_pos (show 0x80 ≤ 0x80 + c % 0x40 ∧ 0x80 + c % 0x40 < 0xC0 by
        constructor <;> omega)]
      have hval : (0xC0 + c / 0x40 - 0xC0) * 0x40 + (0x80 + c % 0x40 - 0x80) = c := by
        omega
      rw [hval]
    · rw [if_neg h2] at h
      by_cases h3 : c < 0x10000
      · rw [if_pos h3] at h
        by_cases h4 : 0xD800 ≤ c ∧ c < 0xE000
        · rw [if_pos h4] at h
          exact absurd h (by simp)
        · rw [if_neg h4] at h
          simp only [Option.some.injEq] at h
          subst h
          simp only [List.append_eq, List.cons_append, List.nil_append, utf8DecodeAux]
          rw [if_neg (show ¬ (0xE0 + c / 0x1000 < 0x80) by omega)]
          rw [if_neg (show ¬ (0xE0 + c / 0x1000 < 0xC2) by omega)]
          rw [if_neg (show ¬ (0xE0 + c / 0x1000 < 0xE0) by omega)]
          rw [if_pos (show 0xE0 + c / 0x1000 < 0xF0 by omega)]
          have hcond : (if 0xE0 + c / 0x1000 = 0xE0 then
              0xA0 ≤ 0x80 + c / 0x40 % 0x40 ∧ 0x80 + c / 0x40 % 0x40 < 0xC0
            else if 0xE0 + c / 0x1000 = 0xED then
              0x80 ≤ 0x80 + c / 0x40 % 0x40 ∧ 0x80 + c / 0x40 % 0x40 < 0xA0
            else 0x80 ≤ 0x80 + c / 0x40 % 0x40 ∧ 0x80 + c / 0x40 % 0x40 < 0xC0) := by
            by_cases hE0 : 0xE0 + c / 0x1000 = 0xE0
            · rw [if_pos hE0]
              constructor <;> omega
            · rw [if_neg hE0]
              by_cases hED : 0xE0 + c / 0x1000 = 0xED
              · rw [if_pos hED]
                constructor <;> omega
              · rw [if_neg hED]
                constructor <;> omega
          rw [if_pos ⟨hcond, by omega, by omega⟩]
          have hval : (0xE0 + c / 0x1000 - 0xE0) * 0x1000 +
              (0x80 + c / 0x40 % 0x40 - 0x80) * 0x40 +
              (0x80 + c % 0x40 - 0x80) = c := by
            omega
          rw [hval]
      · rw [if_neg h3] at h
        by_cases h5 : c < 0x110000
        · rw [if_pos h5] at h
          simp only [Option.some.injEq] at h
          subst h
          simp only [List.append_eq, List.cons_append, List.nil_append, utf8DecodeAux]
          rw [if_neg (show ¬ (0xF0 + c / 0x40000 < 0x80) by omega)]
          rw [if_neg (show ¬ (0xF0 + c / 0x40000 < 0xC2) by omega)]
          rw [if_neg (show ¬ (0xF0 + c / 0x40000 < 0xE0) by omega)]
          rw [if_neg (show ¬ (0xF0 + c / 0x40000 < 0xF0) by omega)]
          rw [if_pos (show 0xF0 + c / 0x40000 < 0xF5 by omega)]
          have hcond : (if 0xF0 + c / 0x40000 = 0xF0 then
              0x90 ≤ 0x80 + c / 0x1000 % 0x40 ∧ 0x80 + c / 0x1000 % 0x40 < 0xC0
            else if 0xF0 + c / 0x40000 = 0xF4 then
              0x80 ≤ 0x80 + c / 0x1000 % 0x40 ∧ 0x80 + c / 0x1000 % 0x40 < 0x90
            else 0x80 ≤ 0x80 + c / 0x1000 % 0x40 ∧ 0x80 + c / 0x1000 % 0x40 < 0xC0) := by
            by_cases hF0 : 0xF0 + c / 0x40000 = 0xF0
            · rw [if_pos hF0]
              constructor <;> omega
            · rw [if_neg hF0]
              by_cases hF4 : 0xF0 + c / 0x40000 = 0xF4
              · rw [if_pos hF4]
                constructor <;> omega
              · rw [if_neg hF4]
                constructor <;> omega
          rw [if_pos ⟨hcond, ⟨by omega, by omega⟩, by omega, by omega⟩]
          have hval : (0xF0 + c / 0x40000 - 0xF0) * 0x40000 +
              (0x80 + c / 0x1000 % 0x40 - 0x80) * 0x1000 +
              (0x80 + c / 0x40 % 0x40 - 0x80) * 0x40 +
              (0x80 + c % 0x40 - 0x80) = c := by
            omega
          rw [hval]
        · rw [if_neg h5] at h
          exact absurd h (by simp)

/-- Every encoded scalar value takes at least one byte. -/
theorem encodeChar_pos (c : Nat) (e : List Nat) (h : encodeChar c = some e) :
    1 ≤ e.length := by
  unfold encodeChar at h
  split at h
  · cases h
    simp
  · split at h
    · cases h
      simp
    · split at h
      · split at h
        · exact absurd h (by simp)
        · cases h
          simp
      · split at h
        · cases h
          simp
        · exact absurd h (by simp)

/-- An encoded string has at least as many bytes as scalar values. -/
theorem utf8Encode_length : ∀ cs bs, utf8Encode cs = some bs →
    cs.length ≤ bs.length := by
  intro cs
  induction cs with
  | nil =>
    intro bs h
    simp only [utf8Encode, Option.some.injEq] at h
    subst h
    simp
  | cons c cs' ih =>
    intro bs h
    simp only [utf8Encode] at h
    cases he : encodeChar c with
    | none => rw [he] at h; simp at h
    | some e =>
      rw [he] at h
      cases hr : utf8Encode cs' with
      | none => rw [hr] at h; simp at h
      | some rest =>
        rw [hr] at h
        simp only [Option.some.injEq] at h
        subst h
        have := encodeChar_pos c e he
        have := ih rest hr
        simp only [List.length_cons, List.length_append]
        omega

/-- Decoding inverts encoding, given enough fuel. -/
theorem utf8DecodeAux_utf8Encode : ∀ cs fuel bs, cs.length ≤ fuel →
    utf8Encode cs = some bs → utf8DecodeAux fuel bs = some cs := by
  intro cs
  induction cs with
  | nil =>
    intro fuel bs _ h
    simp only [utf8Encode, Option.some.injEq] at h
    subst h
    cases fuel <;> rfl
  | cons c cs' ih =>
    intro fuel bs hlen h
    simp only [utf8Encode] at h
    cases he : encodeChar c with
    | none => rw [he] at h; simp at h
    | some e =>
      rw [he] at h
      cases hr : utf8Encode cs' with
      | none => rw [hr] at h; simp at h
      | some rest =>
        rw [hr] at h
        simp only [Option.some.injEq] at h
        subst h
        cases fuel with
        | zero => simp at hlen
        | succ f =>
          rw [utf8DecodeAux_encodeChar f c e rest he]
          rw [ih f rest (by simpa using hlen) hr]
          rfl

/-- Decoding inverts encoding. -/
theorem utf8Decode_utf8Encode (cs bs : List Nat) (h : utf8Encode cs = some bs) :
    utf8Decode bs = some cs :=
  utf8DecodeAux_utf8Encode cs bs.length bs (utf8Encode_length cs bs h) h

/-- Encoding inverts decoding: a successfully decoded byte list is exactly
the encoding of the decoded scalar values. -/
theorem utf8Encode_utf8DecodeAux : ∀ fuel bs cs, utf8DecodeAux fuel bs = some cs →
    utf8Encode cs = some bs := by
  intro fuel
  induction fuel with
  | zero =>
    intro bs cs h
    cases bs with
    | nil =>
      simp only [utf8DecodeAux, Option.some.injEq] at h
      subst h
      rfl
    | cons b bs' => simp [utf8DecodeAux] at h
  | succ f ih =>
    intro bs cs h
    cases bs with
    | nil =>
      simp only [utf8DecodeAux, Option.some.injEq] at h
      subst h
      rfl
    | cons b bs' =>
      simp only [utf8DecodeAux] at h
      split at h
      · -- ASCII byte
        rename_i hb1
        cases hrec : utf8DecodeAux f bs' with
        | none => rw [hrec] at h; simp at h
        | some cs' =>
          rw [hrec] at h
          simp only [Option.map_some', Option.some.injEq] at h
          subst h
          have henc : encodeChar b = some [b] := by
            unfold encodeChar
            rw [if_pos hb1]
          simp only [utf8Encode, henc, ih bs' cs' hrec]
          rfl
      · split at h
        · exact absurd h (by simp)
        · split at h
          · -- 2-byte sequence
            split at h
            · rename_i hx0 b1 bs1
              by_cases hcont : 0x80 ≤ b1 ∧ b1 < 0xC0
              case neg =>
                rw [if_neg hcont] at h
                exact absurd h (by simp)
              rw [if_pos hcont] at h
              cases hrec : utf8DecodeAux f bs1 with
              | none => rw [hrec] at h; simp at h
              | some cs' =>
                rw [hrec] at h
                simp only [Option.map_some', Option.some.injEq] at h
                subst h
                have henc : encodeChar ((b - 0xC0) * 0x40 + (b1 - 0x80)) =
                    some [b, b1] := by
                  unfold encodeChar
                  rw [if_neg (show ¬ ((b - 0xC0) * 0x40 + (b1 - 0x80) < 0x80) by
                    omega)]
                  rw [if_pos (show (b - 0xC0) * 0x40 + (b1 - 0x80) < 0x800 by
                    omega)]
                  have e1 : 0xC0 + ((b - 0xC0) * 0x40 + (b1 - 0x80)) / 0x40 = b := by
                    omega
                  have e2 : 0x80 + ((b - 0xC0) * 0x40 + (b1 - 0x80)) % 0x40 = b1 := by
                    omega
                  rw [e1, e2]
                simp only [utf8Encode, henc, ih bs1 cs' hrec]
                rfl
            · exact absurd h (by simp)
          · split at h
            · -- 3-byte sequence
              split at h
              · rename_i hx1 b1 b2 bs2
                by_cases hcont : (if b = 0xE0 then 0xA0 ≤ b1 ∧ b1 < 0xC0
                    else if b = 0xED then 0x80 ≤ b1 ∧ b1 < 0xA0
                    else 0x80 ≤ b1 ∧ b1 < 0xC0) ∧ 0x80 ≤ b2 ∧ b2 < 0xC0
                case neg =>
                  rw [if_neg hcont] at h
                  exact absurd h (by simp)
                rw [if_pos hcont] at h
                obtain ⟨hcont1, hcont2a, hcont2b⟩ := hcont
                have hb1 : (0xA0 ≤ b1 ∧ b1 < 0xC0 ∧ b = 0xE0) ∨
                    (0x80 ≤ b1 ∧ b1 < 0xA0 ∧ b = 0xED) ∨
                    (0x80 ≤ b1 ∧ b1 < 0xC0 ∧ ¬ b = 0xE0 ∧ ¬ b = 0xED) := by
                  by_cases hE : b = 0xE0
                  · rw [if_pos hE] at hcont1
                    exact Or.inl ⟨hcont1.1, hcont1.2, hE⟩
                  · rw [if_neg hE] at hcont1
                    by_cases hD : b = 0xED
                    · rw [if_pos hD] at hcont1
                      exact Or.inr (Or.inl ⟨hcont1.1, hcont1.2, hD⟩)
                    · rw [if_neg hD] at hcont1
                      exact Or.inr (Or.inr ⟨hcont1.1, hcont1.2, hE, hD⟩)
                cases hrec : utf8DecodeAux f bs2 with
                | none => rw [hrec] at h; simp at h
                | some cs' =>
                  rw [hrec] at h
                  simp only [Option.map_some', Option.some.injEq] at h
                  subst h
                  have henc : encodeChar ((b - 0xE0) * 0x1000 +
                      (b1 - 0x80) * 0x40 + (b2 - 0x80)) = some [b, b1, b2] := by
                    unfold encodeChar
                    rw [if_neg (show ¬ ((b - 0xE0) * 0x1000 +
                      (b1 - 0x80) * 0x40 + (b2 - 0x80) < 0x80) by omega)]
                    rw [if_neg (show ¬ ((b - 0xE0) * 0x1000 +
                      (b1 - 0x80) * 0x40 + (b2 - 0x80) < 0x800) by omega)]
                    rw [if_pos (show (b - 0xE0) * 0x1000 +
                      (b1 - 0x80) * 0x40 + (b2 - 0x80) < 0x10000 by omega)]
                    rw [if_neg (show ¬ (0xD800 ≤ (b - 0xE0) * 0x1000 +
                      (b1 - 0x80) * 0x40 + (b2 - 0x80) ∧ (b - 0xE0) * 0x1000 +
                      (b1 - 0x80) * 0x40 + (b2 - 0x80) < 0xE000) by omega)]
                    have e1 : 0xE0 + ((b - 0xE0) * 0x1000 +
                        (b1 - 0x80) * 0x40 + (b2 - 0x80)) / 0x1000 = b := by omega
                    have e2 : 0x80 + ((b - 0xE0) * 0x1000 +
                        (b1 - 0x80) * 0x40 + (b2 - 0x80)) / 0x40 % 0x40 = b1 := by
                      omega
                    have e3 : 0x80 + ((b - 0xE0) * 0x1000 +
                        (b1 - 0x80) * 0x40 + (b2 - 0x80)) % 0x40 = b2 := by omega
                    rw [e1, e2, e3]
                  simp only [utf8Encode, henc, ih bs2 cs' hrec]
                  rfl
              · exact absurd h (by simp)
            · split at h
              · -- 4-byte sequence
                split at h
                · rename_i hx2 b1 b2 b3 bs3
                  by_cases hcont : (if b = 0xF0 then 0x90 ≤ b1 ∧ b1 < 0xC0
                      else if b = 0xF4 then 0x80 ≤ b1 ∧ b1 < 0x90
                      else 0x80 ≤ b1 ∧ b1 < 0xC0) ∧
                      (0x80 ≤ b2 ∧ b2 < 0xC0) ∧ (0x80 ≤ b3 ∧ b3 < 0xC0)
                  case neg =>
                    rw [if_neg hcont] at h
                    exact absurd h (by simp)
                  rw [if_pos hcont] at h
                  obtain ⟨hcont1, ⟨hc2a, hc2b⟩, hc3a, hc3b⟩ := hcont
                  have hb1 : (0x90 ≤ b1 ∧ b1 < 0xC0 ∧ b = 0xF0) ∨
                      (0x80 ≤ b1 ∧ b1 < 0x90 ∧ b = 0xF4) ∨
                      (0x80 ≤ b1 ∧ b1 < 0xC0 ∧ ¬ b = 0xF0 ∧ ¬ b = 0xF4) := by
                    by_cases hE : b = 0xF0
                    · rw [if_pos hE] at hcont1
                      exact Or.inl ⟨hcont1.1, hcont1.2, hE⟩
                    · rw [if_neg hE] at hcont1
                      by_cases hD : b = 0xF4
                      · rw [if_pos hD] at hcont1
                        exact Or.inr (Or.inl ⟨hcont1.1, hcont1.2, hD⟩)
                      · rw [if_neg hD] at hcont1
                        exact Or.inr (Or.inr ⟨hcont1.1, hcont1.2, hE, hD⟩)
                  cases hrec : utf8DecodeAux f bs3 with
                  | none => rw [hrec] at h; simp at h
                  | some cs' =>
                    rw [hrec] at h
                    simp only [Option.map_some', Option.some.injEq] at h
                    subst h
                    have henc : encodeChar ((b - 0xF0) * 0x40000 +
                        (b1 - 0x80) * 0x1000 + (b2 - 0x80) * 0x40 + (b3 - 0x80)) =
                        some [b, b1, b2, b3] := by
                      unfold encodeChar
                      rw [if_neg (show ¬ ((b - 0xF0) * 0x40000 +
                        (b1 - 0x80) * 0x1000 + (b2 - 0x80) * 0x40 + (b3 - 0x80) <
                        0x80) by omega)]
                      rw [if_neg (show ¬ ((b - 0xF0) * 0x40000 +
                        (b1 - 0x80) * 0x1000 + (b2 - 0x80) * 0x40 + (b3 - 0x80) <
                        0x800) by omega)]
                      rw [if_neg (show ¬ ((b - 0xF0) * 0x40000 +
                        (b1 - 0x80) * 0x1000 + (b2 - 0x80) * 0x40 + (b3 - 0x80) <
                        0x10000) by omega)]
                      rw [if_pos (show (b - 0xF0) * 0x40000 +
                        (b1 - 0x80) * 0x1000 + (b2 - 0x80) * 0x40 + (b3 - 0x80) <
                        0x110000 by omega)]
                      have e1 : 0xF0 + ((b - 0xF0) * 0x40000 +
                          (b1 - 0x80) * 0x1000 + (b2 - 0x80) * 0x40 +
                          (b3 - 0x80)) / 0x40000 = b := by omega
                      have e2 : 0x80 + ((b - 0xF0) * 0x40000 +
                          (b1 - 0x80) * 0x1000 + (b2 - 0x80) * 0x40 +
                          (b3 - 0x80)) / 0x1000 % 0x40 = b1 := by omega
                      have e3 : 0x80 + ((b - 0xF0) * 0x40000 +
                          (b1 - 0x80) * 0x1000 + (b2 - 0x80) * 0x40 +
                          (b3 - 0x80)) / 0x40 % 0x40 = b2 := by omega
                      have e4 : 0x80 + ((b - 0xF0) * 0x40000 +
                          (b1 - 0x80) * 0x1000 + (b2 - 0x80) * 0x40 +
                          (b3 - 0x80)) % 0x40 = b3 := by omega
                      rw [e1, e2, e3, e4]
                    simp only [utf8Encode, henc, ih bs3 cs' hrec]
                    rfl
                · exact absurd h (by simp)
              · exact absurd h (by simp)

/-- Encoding inverts decoding. -/
theorem utf8Encode_utf8Decode (bs cs : List Nat) (h : utf8Decode bs = some cs) :
    utf8Encode cs = some bs :=
  utf8Encode_utf8DecodeAux bs.length bs cs h

/-- C7: `receive` consumes exactly one read-call chunk (never a second
read), strips exactly one trailing CRLF — or failing that one trailing LF —
from the delivered bytes, decodes the rest as UTF-8, and reports a decode
error exactly when the stripped bytes are not valid UTF-8 (valid = the
encoding of some sequence of Unicode scalar values); a decoded string
re-encodes to exactly the stripped bytes (bytes otherwise unchanged).  A
failed read call (`none`) is the transport error. -/
theorem c7_receive :
    (∀ bs rest, receive (bs :: rest) =
      some (utf8Decode (stripEol (bs.take 2048)), rest)) ∧
    (∀ xs, stripEol (xs ++ [13, 10]) = xs) ∧
    (∀ xs, xs.getLast? ≠ some 13 → stripEol (xs ++ [10]) = xs) ∧
    (∀ bs, bs.getLast? ≠ some 10 → stripEol bs = bs) ∧
    (∀ bs cs, utf8Decode bs = some cs → utf8Encode cs = some bs) ∧
    (∀ bs, utf8Decode bs = none ↔ ¬ ∃ cs, utf8Encode cs = some bs) ∧
    receive [] = none := by
  refine ⟨fun bs rest => rfl, stripEol_crlf, stripEol_lf, stripEol_keep,
    utf8Encode_utf8Decode, ?_, rfl⟩
  intro bs
  constructor
  · intro hnone hex
    obtain ⟨cs, hcs⟩ := hex
    have := utf8Decode_utf8Encode cs bs hcs
    rw [hnone] at this
    exact absurd this (by simp)
  · intro hne
    cases hd : utf8Decode bs with
    | none => rfl
    | some cs => exact absurd ⟨cs, utf8Encode_utf8Decode bs cs hd⟩ hne

/-- Witness for C7: the bytes of `"Hi\r\n"` in one chunk decode to `"Hi"`
with the CRLF stripped; an LF-terminated chunk loses exactly the LF. -/
theorem c7_receive_witness :
    receive [[72, 105, 13, 10]] =
      some (utf8Decode (stripEol ([72, 105, 13, 10].take 2048)), []) ∧
    stripEol ([72, 105] ++ [13, 10]) = [72, 105] ∧
    stripEol ([72, 105] ++ [10]) = [72, 105] ∧
    stripEol [72, 105] = [72, 105] :=
  ⟨c7_receive.1 [72, 105, 13, 10] [],
   c7_receive.2.1 [72, 105],
   c7_receive.2.2.1 [72, 105] (by decide),
   c7_receive.2.2.2.1 [72, 105] (by decide)⟩

end DmmLogger
